import Mathlib

/-!
# Verification of the full-text-search core of `stewalec/website`

Shallow embedding of `src/search.go` (query preparation, per-collection
index query, rank merge) together with proofs of the specification's
claims about it.

Conventions of the embedding:
* Go strings are modelled through their character lists (`List Char`);
  each `String`-level function delegates to a `List Char`-level one.
* The `float64` rank score is modelled as a rational number `ℚ`: the
  claims only concern the ordering of rank values, never floating-point
  rounding, and FTS5 BM25 ranks are ordinary finite reals.
* `database/sql` query execution is modelled by oracles
  `String → Except Unit (List row)`; `Except.error` models a failed
  `db.Query` call (`err != nil`).  The model additionally returns the
  list of index queries that were issued, in order, so that "issues no
  query against the index" is a statable property.
-/

namespace Website

/-- Go's `unicode.IsSpace`: the Unicode White_Space code points.  These
are exactly U+0009–U+000D, U+0020, U+0085, U+00A0, U+1680,
U+2000–U+200A, U+2028, U+2029, U+202F, U+205F and U+3000; both
`strings.TrimSpace` and `strings.Fields` split on this predicate. -/
def isGoSpace (c : Char) : Bool :=
  c = ' ' || c = '\t' || c = '\n' || c = Char.ofNat 0x0B || c = Char.ofNat 0x0C ||
  c = '\r' || c = Char.ofNat 0x85 || c = Char.ofNat 0xA0 || c = Char.ofNat 0x1680 ||
  (0x2000 ≤ c.toNat && c.toNat ≤ 0x200A) || c = Char.ofNat 0x2028 ||
  c = Char.ofNat 0x2029 || c = Char.ofNat 0x202F || c = Char.ofNat 0x205F ||
  c = Char.ofNat 0x3000

/-- Character-level upper-casing, as used by `strings.ToUpper` in the
comparisons against the ASCII keywords `AND`/`OR`/`NOT`.  Go performs
Unicode simple case mapping; the model maps the ASCII range only, which
agrees with Go on every comparison the program makes, because no
non-ASCII code point has A, N, D, O, R or T as its Unicode simple
uppercase mapping. -/
def toUpperChar (c : Char) : Char :=
  if 'a' ≤ c && c ≤ 'z' then Char.ofNat (c.toNat - 0x20) else c

/-- Model of `strings.ReplaceAll(query, "*", "")` — delete every `'*'`. -/
def removeStars (l : List Char) : List Char :=
  l.filter (fun c => c != '*')

/-- Model of `strings.TrimSpace` — drop leading and trailing white space. -/
def trimSpace (l : List Char) : List Char :=
  (((l.dropWhile isGoSpace).reverse).dropWhile isGoSpace).reverse

/-- Join a character onto the front of the first field of a split
(helper of `fields`). -/
def consField (c : Char) : List (List Char) → List (List Char)
  | [] => [[c]]
  | w :: ws => (c :: w) :: ws

/-- Model of `strings.Fields` — split around maximal runs of white space.
Written with structural recursion (joining a leading non-space
character onto the first field of the tail's split) so that it both
computes by `decide` and supports induction. -/
def fields : List Char → List (List Char)
  | [] => []
  | [c] => if isGoSpace c then [] else [[c]]
  | c :: d :: cs =>
    if isGoSpace c then fields (d :: cs)
    else if isGoSpace d then [c] :: fields (d :: cs)
    else consField c (fields (d :: cs))

/-- Model of `strings.Join(words, " ")`. -/
def joinSpace : List (List Char) → List Char
  | [] => []
  | [w] => w
  | w :: v :: ws => w ++ ' ' :: joinSpace (v :: ws)

/-- The test `strings.ToUpper(word) == "AND" || … == "OR" || … == "NOT"`
from `prepareFTSQuery`'s loop. -/
def isOperator (w : List Char) : Bool :=
  w.map toUpperChar = "AND".data || w.map toUpperChar = "OR".data ||
  w.map toUpperChar = "NOT".data

/-- The body of the `for i, word := range words` loop of
`prepareFTSQuery`: operators are kept (`continue`), tokens that both
start and end with a double quote are kept (`continue`), every other
token receives the trailing prefix wildcard. -/
def transformWord (w : List Char) : List Char :=
  if isOperator w then w
  else if w.head? = some '"' && w.getLast? = some '"' then w
  else w ++ ['*']

/-- The function `prepareFTSQuery` of `src/search.go` lines 143–174, on character
lists: strip `'*'`, trim white space, return the empty result as is,
otherwise split into fields, rewrite each field, and re-join with
single spaces. -/
def prepareL (l : List Char) : List Char :=
  let q := trimSpace (removeStars l)
  if q = [] then q
  else joinSpace ((fields q).map transformWord)

/-- String-level `prepareFTSQuery`. -/
def prepareFTSQuery (s : String) : String :=
  String.mk (prepareL s.data)

/-- Input `s` with every literal `'*'` deleted (the claim C4 comparison
input). -/
def removeStarsStr (s : String) : String :=
  String.mk (removeStars s.data)

/-- Holds (`true`) iff every `'*'` in the list is immediately followed by white
space or by the end of the string — i.e. every wildcard marker stands
at the end of a whitespace-delimited token. -/
def starsOnlyAtTokenEnds : List Char → Bool
  | [] => true
  | [_] => true
  | c :: d :: cs =>
    if c = '*' then isGoSpace d && starsOnlyAtTokenEnds (d :: cs)
    else starsOnlyAtTokenEnds (d :: cs)

/-- The `Post` struct of `src/main.go` (times as abstract naturals,
`template.HTML` as a string).  `published` is the row's `published`
column, carried so that publication invariants are statable. -/
structure Post where
  id : Nat
  title : String
  slug : String
  content : String
  htmlContent : String
  postType : String
  published : Bool
  createdAt : Nat
  updatedAt : Nat
  tags : List String
deriving DecidableEq

/-- The `Page` struct of `src/main.go`. -/
structure Page where
  id : Nat
  title : String
  slug : String
  content : String
  htmlContent : String
  published : Bool
  createdAt : Nat
  updatedAt : Nat
deriving DecidableEq

/-- The `SearchResult` struct of `src/search.go`: exactly one of
`post`/`page` is set, `rank` is the FTS5 rank (lower = better match),
`snippet` the highlighted excerpt. -/
structure SearchResult where
  type : String
  post : Option Post
  page : Option Page
  rank : ℚ
  snippet : String
  matchInfo : String
deriving DecidableEq

/-- The ordering key of `sortResultsByRank`'s comparator
(`results[i].Rank < results[j].Rank`): sort ascending by rank. -/
def rankLE (a b : SearchResult) : Prop :=
  a.rank ≤ b.rank

instance : DecidableRel rankLE := fun a b =>
  inferInstanceAs (Decidable (a.rank ≤ b.rank))

instance : IsTotal SearchResult rankLE :=
  ⟨fun a b => le_total a.rank b.rank⟩

instance : IsTrans SearchResult rankLE :=
  ⟨fun _ _ _ hab hbc => le_trans hab hbc⟩

/-- Model of `sortResultsByRank` (`src/search.go` lines 135–140).  Go's
`sort.Slice` runs a deterministic in-place comparison sort whose order
among equal keys is implementation-defined; it is modelled by a
concrete deterministic comparison sort on the rank order.  The claims
proved below use only the properties every `sort.Slice` run has: the
output is a rank-sorted permutation of the input, computed
deterministically from it. -/
def sortResultsByRank (results : List SearchResult) : List SearchResult :=
  results.insertionSort rankLE

/-- The result-merge step of `handleSearch`: both collections' result
lists are accumulated into one slice (posts first, pages appended) and
then sorted by rank. -/
def mergeResults (postResults pageResults : List SearchResult) : List SearchResult :=
  sortResultsByRank (postResults ++ pageResults)

/-- The capability an FTS5 virtual table offers a query: a match
predicate, a rank score and a snippet, each depending on the match
expression and the row. -/
structure FTSIndex (α : Type) where
  isMatch : String → α → Bool
  rank : String → α → ℚ
  snippet : String → α → String

/-- Semantics of the two SQL statements of `handleSearch`
(`src/search.go` lines 43–58 and 83–97):
`SELECT … FROM t JOIN t_fts ON … WHERE t_fts MATCH ?1 AND p.published = 1
 ORDER BY fts.rank LIMIT 50` — filter the table rows to those matching
the expression and flagged published, attach rank and snippet, order by
rank ascending, and keep at most 50 rows.  (SQL leaves the order of
equal-rank rows unspecified; the model fixes one.) -/
def runFTSQuery {α : Type} (idx : FTSIndex α) (published : α → Bool)
    (table : List α) (q : String) : List (α × ℚ × String) :=
  ((((table.filter (fun a => idx.isMatch q a && published a)).map
      (fun a => (a, idx.rank q a, idx.snippet q a))).insertionSort
      (fun x y => x.2.1 ≤ y.2.1)).take 50)

instance : IsTotal (α × ℚ × String) (fun x y => x.2.1 ≤ y.2.1) :=
  ⟨fun a b => le_total a.2.1 b.2.1⟩

instance : IsTrans (α × ℚ × String) (fun x y => x.2.1 ≤ y.2.1) :=
  ⟨fun _ _ _ hab hbc => le_trans hab hbc⟩

/-- Which collection an index query was issued against. -/
inductive Collection
  | posts
  | pages
deriving DecidableEq

/-- The body of the posts result loop: scan the row into a `Post`,
resolve its tags via `app.getPostTags(p.ID)`, and append a
`SearchResult` of type `"post"`. -/
def postRowToResult (getPostTags : Nat → List String)
    (row : Post × ℚ × String) : SearchResult :=
  { type := "post"
    post := some { row.1 with tags := getPostTags row.1.id }
    page := none
    rank := row.2.1
    snippet := row.2.2
    matchInfo := "" }

/-- The body of the pages result loop. -/
def pageRowToResult (row : Page × ℚ × String) : SearchResult :=
  { type := "page"
    post := none
    page := some row.1
    rank := row.2.1
    snippet := row.2.2
    matchInfo := "" }

/-- The search core of `handleSearch` (`src/search.go` lines 19–133),
with rendering stripped away.  `postsQuery`/`pagesQuery` are the two
`app.db.Query` calls, modelled as oracles from the match expression to
either failure (`err != nil`, in which case the `if err == nil` guard
skips that collection's loop) or a list of rows.  Output: the final
sorted result list, together with the list of index queries that were
issued, in program order.  Note the empty-query short-circuit tests the
RAW query string; when it is non-empty both index queries are always
issued, one after the other, regardless of either one's failure. -/
def searchCore (rawQuery : String)
    (postsQuery : String → Except Unit (List (Post × ℚ × String)))
    (pagesQuery : String → Except Unit (List (Page × ℚ × String)))
    (getPostTags : Nat → List String) :
    List SearchResult × List (Collection × String) :=
  if rawQuery = "" then ([], [])
  else
    let ftsQuery := prepareFTSQuery rawQuery
    let postResults :=
      match postsQuery ftsQuery with
      | Except.error _ => []
      | Except.ok rows => rows.map (postRowToResult getPostTags)
    let pageResults :=
      match pagesQuery ftsQuery with
      | Except.error _ => []
      | Except.ok rows => rows.map pageRowToResult
    (sortResultsByRank (postResults ++ pageResults),
     [(Collection.posts, ftsQuery), (Collection.pages, ftsQuery)])

/-- Instantiation of `searchCore` with both oracles given by the SQL semantics
`runFTSQuery` over concrete tables — the configuration of the deployed
program, where each `db.Query` call succeeds and returns exactly the
rows the SQL statement denotes. -/
def searchCoreSQL (rawQuery : String)
    (postIdx : FTSIndex Post) (pageIdx : FTSIndex Page)
    (postsTable : List Post) (pagesTable : List Page)
    (getPostTags : Nat → List String) :
    List SearchResult × List (Collection × String) :=
  searchCore rawQuery
    (fun q => Except.ok (runFTSQuery postIdx Post.published postsTable q))
    (fun q => Except.ok (runFTSQuery pageIdx Page.published pagesTable q))
    getPostTags

/-- A token the preparer can emit: either star-free, or a star-free
token with a single appended trailing wildcard. -/
def wordOK (w : List Char) : Prop :=
  (∀ c ∈ w, c ≠ '*') ∨ ∃ v, (∀ c ∈ v, c ≠ '*') ∧ w = v ++ ['*']

/-- The publication invariant of one `SearchResult`: whichever item it
references is flagged published. -/
def resultPublished (r : SearchResult) : Prop :=
  (∀ p, r.post = some p → p.published = true) ∧
  (∀ g, r.page = some g → g.published = true)

/-- The per-token rewrite of spec §4.1 step 4, written from the spec's
words for the refinement claim C5: an operator keyword (case-insensitive
`AND`/`OR`/`NOT`) is left unchanged, a token that starts AND ends with a
double-quote character is left unchanged, and every other token gets the
prefix-wildcard marker appended. -/
def specTokenRewrite (w : List Char) : List Char :=
  if w.map toUpperChar = "AND".data ∨ w.map toUpperChar = "OR".data ∨
      w.map toUpperChar = "NOT".data then w
  else if w.head? = some '"' ∧ w.getLast? = some '"' then w
  else w ++ ['*']

/-! ## Unfolding lemmas for `fields` -/

theorem fields_cons_space {c : Char} (cs : List Char) (h : isGoSpace c = true) :
    fields (c :: cs) = fields cs := by
  cases cs with
  | nil => simp [fields, h]
  | cons d ds => rw [fields]; simp [h]

theorem fields_singleton {c : Char} (h : isGoSpace c = false) :
    fields [c] = [[c]] := by
  simp [fields, h]

theorem fields_cons_cons_space {c d : Char} (cs : List Char)
    (hc : isGoSpace c = false) (hd : isGoSpace d = true) :
    fields (c :: d :: cs) = [c] :: fields (d :: cs) := by
  rw [fields]
  simp [hc, hd]

theorem fields_cons_cons_nonspace {c d : Char} (cs : List Char)
    (hc : isGoSpace c = false) (hd : isGoSpace d = false) :
    fields (c :: d :: cs) = consField c (fields (d :: cs)) := by
  rw [fields]
  simp [hc, hd]

theorem fields_ne_nil {d : Char} (ds : List Char) (hd : isGoSpace d = false) :
    fields (d :: ds) ≠ [] := by
  cases ds with
  | nil => simp [fields_singleton hd]
  | cons e es =>
    by_cases he : isGoSpace e
    · rw [fields_cons_cons_space es hd he]; simp
    · rw [fields_cons_cons_nonspace es hd (by simpa using he)]
      cases h : fields (e :: es) <;> simp [consField]

end Website
namespace Website

theorem fields_append {w : List Char} (hw : w ≠ [])
    (hns : ∀ c ∈ w, isGoSpace c = false) {l : List Char}
    (hl : l = [] ∨ ∃ d ds, l = d :: ds ∧ isGoSpace d = true) :
    fields (w ++ l) = w :: fields l := by
  induction w with
  | nil => exact absurd rfl hw
  | cons c w2 ih =>
    have hc : isGoSpace c = false := hns c (by simp)
    cases w2 with
    | nil =>
      rcases hl with rfl | ⟨d, ds, rfl, hd⟩
      · simpa using fields_singleton hc
      · simpa using fields_cons_cons_space ds hc hd
    | cons c2 w3 =>
      have hc2 : isGoSpace c2 = false := hns c2 (by simp)
      have ihh : fields ((c2 :: w3) ++ l) = (c2 :: w3) :: fields l :=
        ih (by simp) (fun x hx => hns x (by simp [hx]))
      have : fields (c :: c2 :: (w3 ++ l)) = consField c (fields (c2 :: (w3 ++ l))) :=
        fields_cons_cons_nonspace (w3 ++ l) hc hc2
      simpa [this, consField] using congrArg (consField c) ihh

theorem mem_fields {l : List Char} :
    ∀ {w : List Char}, w ∈ fields l → w ≠ [] ∧ ∀ c ∈ w, isGoSpace c = false ∧ c ∈ l := by
  induction l with
  | nil => intro w h; simp [fields] at h
  | cons a as ih =>
    intro w h
    cases as with
    | nil =>
      by_cases ha : isGoSpace a
      · simp [fields, ha] at h
      · rw [fields_singleton (by simpa using ha)] at h
        simp at h
        subst h
        refine ⟨by simp, ?_⟩
        intro c hc
        simp at hc
        subst hc
        exact ⟨by simpa using ha, by simp⟩
    | cons b bs =>
      by_cases ha : isGoSpace a
      · rw [fields_cons_space _ ha] at h
        obtain ⟨h1, h2⟩ := ih h
        exact ⟨h1, fun c hc => ⟨(h2 c hc).1, by simp [(h2 c hc).2]⟩⟩
      · have ha' : isGoSpace a = false := by simpa using ha
        by_cases hb : isGoSpace b
        · rw [fields_cons_cons_space bs ha' hb] at h
          simp only [List.mem_cons] at h
          rcases h with rfl | h
          · refine ⟨by simp, ?_⟩
            intro c hc
            simp at hc
            subst hc
            exact ⟨ha', by simp⟩
          · obtain ⟨h1, h2⟩ := ih h
            exact ⟨h1, fun c hc => ⟨(h2 c hc).1, by simp [(h2 c hc).2]⟩⟩
        · have hb' : isGoSpace b = false := by simpa using hb
          rw [fields_cons_cons_nonspace bs ha' hb'] at h
          obtain ⟨v, vs, hvvs⟩ : ∃ v vs, fields (b :: bs) = v :: vs := by
            cases hf : fields (b :: bs) with
            | nil => exact absurd hf (fields_ne_nil bs hb')
            | cons v vs => exact ⟨v, vs, rfl⟩
          rw [hvvs] at h
          simp only [consField, List.mem_cons] at h
          rcases h with rfl | h
          · have hv := ih (w := v) (by simp [hvvs])
            refine ⟨by simp, ?_⟩
            intro c hc
            simp only [List.mem_cons] at hc
            rcases hc with rfl | hc
            · exact ⟨ha', by simp⟩
            · exact ⟨(hv.2 c hc).1, by simp [(hv.2 c hc).2]⟩
          · have hmem : w ∈ fields (b :: bs) := by simp [hvvs, h]
            obtain ⟨h1, h2⟩ := ih hmem
            exact ⟨h1, fun c hc => ⟨(h2 c hc).1, by simp [(h2 c hc).2]⟩⟩

theorem joinSpace_ne_nil {w : List Char} {ws : List (List Char)} (hw : w ≠ []) :
    joinSpace (w :: ws) ≠ [] := by
  cases ws with
  | nil => simpa [joinSpace] using hw
  | cons v vs => simp [joinSpace, hw]

theorem fields_joinSpace {ws : List (List Char)}
    (h : ∀ w ∈ ws, w ≠ [] ∧ ∀ c ∈ w, isGoSpace c = false) :
    fields (joinSpace ws) = ws := by
  induction ws with
  | nil => simp [joinSpace, fields]
  | cons w ws ih =>
    cases ws with
    | nil =>
      have hw := h w (by simp)
      rw [joinSpace]
      have := fields_append hw.1 (fun c hc => (hw.2 c hc)) (l := []) (Or.inl rfl)
      simpa [fields] using this
    | cons v vs =>
      have hw := h w (by simp)
      rw [joinSpace]
      have hsp : (' ' :: joinSpace (v :: vs)) = [] ∨
          ∃ d ds, (' ' :: joinSpace (v :: vs)) = d :: ds ∧ isGoSpace d = true :=
        Or.inr ⟨' ', joinSpace (v :: vs), rfl, by decide⟩
      rw [fields_append hw.1 hw.2 hsp, fields_cons_space _ (by decide),
        ih (fun u hu => h u (by simp [hu]))]

end Website
namespace Website

/-! ## Lemmas about `trimSpace` and `removeStars` -/

theorem dropWhile_eq_self_of_head {p : Char → Bool} {l : List Char}
    (h : ∀ c, l.head? = some c → p c = false) : l.dropWhile p = l := by
  cases l with
  | nil => rfl
  | cons a as => simp [List.dropWhile_cons, h a rfl]

theorem head?_dropWhile_false {p : Char → Bool} {l : List Char} {c : Char}
    (h : (l.dropWhile p).head? = some c) : p c = false := by
  induction l with
  | nil => simp at h
  | cons a as ih =>
    by_cases ha : p a
    · rw [List.dropWhile_cons, if_pos ha] at h
      exact ih h
    · rw [List.dropWhile_cons, if_neg ha] at h
      simp only [List.head?_cons, Option.some.injEq] at h
      subst h
      simpa using ha

theorem head?_trimSpace_false {l : List Char} {c : Char}
    (h : (trimSpace l).head? = some c) : isGoSpace c = false := by
  have key : ∀ A : List Char, ((A.reverse.dropWhile isGoSpace).reverse).head? = some c →
      A.head? = some c := by
    intro A hA
    obtain ⟨t, ht⟩ := List.dropWhile_suffix (l := A.reverse) (p := isGoSpace)
    set s := A.reverse.dropWhile isGoSpace with hs
    have hA2 : A = s.reverse ++ t.reverse := by
      have h3 := congrArg List.reverse ht
      simpa [List.reverse_append] using h3.symm
    cases hsr : s.reverse with
    | nil => rw [hsr] at hA; simp at hA
    | cons x xs =>
      rw [hsr] at hA
      simp only [List.head?_cons, Option.some.injEq] at hA
      rw [hA2, hsr, hA]
      simp
  exact head?_dropWhile_false (key (l.dropWhile isGoSpace) h)

theorem getLast?_trimSpace_false {l : List Char} {c : Char}
    (h : (trimSpace l).getLast? = some c) : isGoSpace c = false := by
  unfold trimSpace at h
  rw [List.getLast?_reverse] at h
  exact head?_dropWhile_false h

theorem trimSpace_eq_self {l : List Char}
    (h1 : ∀ c, l.head? = some c → isGoSpace c = false)
    (h2 : ∀ c, l.getLast? = some c → isGoSpace c = false) : trimSpace l = l := by
  unfold trimSpace
  rw [dropWhile_eq_self_of_head h1]
  rw [dropWhile_eq_self_of_head (by
    intro c hc
    rw [List.head?_reverse] at hc
    exact h2 c hc)]
  exact List.reverse_reverse l

theorem mem_trimSpace {l : List Char} {c : Char} (h : c ∈ trimSpace l) : c ∈ l := by
  unfold trimSpace at h
  rw [List.mem_reverse] at h
  have h2 := (List.dropWhile_sublist (l := (l.dropWhile isGoSpace).reverse)
    (p := isGoSpace)).subset h
  rw [List.mem_reverse] at h2
  exact (List.dropWhile_sublist (l := l) (p := isGoSpace)).subset h2

theorem removeStars_eq_self {l : List Char} (h : ∀ c ∈ l, c ≠ '*') :
    removeStars l = l := by
  unfold removeStars
  rw [List.filter_eq_self]
  intro a ha
  simpa using h a ha

theorem mem_removeStars_ne_star {l : List Char} {c : Char}
    (h : c ∈ removeStars l) : c ≠ '*' := by
  unfold removeStars at h
  simpa using (List.of_mem_filter h)

theorem removeStars_idem (l : List Char) :
    removeStars (removeStars l) = removeStars l :=
  removeStars_eq_self (fun _ hc => mem_removeStars_ne_star hc)

theorem removeStars_append (l m : List Char) :
    removeStars (l ++ m) = removeStars l ++ removeStars m := by
  simp [removeStars, List.filter_append]

theorem removeStars_joinSpace (ws : List (List Char)) :
    removeStars (joinSpace ws) = joinSpace (ws.map removeStars) := by
  induction ws with
  | nil => simp [joinSpace, removeStars]
  | cons w ws ih =>
    cases ws with
    | nil => simp [joinSpace]
    | cons v vs =>
      rw [joinSpace, List.map_cons, List.map_cons]
      rw [show (removeStars w :: removeStars v :: List.map removeStars vs) =
        removeStars w :: (removeStars v :: List.map removeStars vs) from rfl]
      rw [joinSpace, removeStars_append]
      have h4 : removeStars (' ' :: joinSpace (v :: vs)) =
          ' ' :: removeStars (joinSpace (v :: vs)) := by
        simp [removeStars, List.filter_cons]
      rw [h4, ih]
      simp [List.map_cons]

end Website
namespace Website

/-! ## Lemmas about `transformWord`, `joinSpace` and `prepareL` -/

theorem transformWord_ne_nil {w : List Char} (h : w ≠ []) : transformWord w ≠ [] := by
  unfold transformWord
  split
  · exact h
  · split
    · exact h
    · simp

theorem transformWord_nonspace {w : List Char}
    (h : ∀ c ∈ w, isGoSpace c = false) : ∀ c ∈ transformWord w, isGoSpace c = false := by
  unfold transformWord
  split
  · exact h
  · split
    · exact h
    · intro c hc
      rw [List.mem_append] at hc
      rcases hc with hc | hc
      · exact h c hc
      · simp at hc
        subst hc
        decide

theorem removeStars_transformWord {w : List Char} (h : ∀ c ∈ w, c ≠ '*') :
    removeStars (transformWord w) = w := by
  unfold transformWord
  split
  · exact removeStars_eq_self h
  · split
    · exact removeStars_eq_self h
    · rw [removeStars_append, removeStars_eq_self h]
      simp [removeStars]

theorem head?_joinSpace_false {ws : List (List Char)}
    (h : ∀ w ∈ ws, w ≠ [] ∧ ∀ c ∈ w, isGoSpace c = false) :
    ∀ c, (joinSpace ws).head? = some c → isGoSpace c = false := by
  cases ws with
  | nil => simp [joinSpace]
  | cons w ws =>
    intro c hc
    have hw := h w (by simp)
    obtain ⟨rest, hr⟩ : ∃ rest, joinSpace (w :: ws) = w ++ rest := by
      cases ws with
      | nil => exact ⟨[], by simp [joinSpace]⟩
      | cons v vs => exact ⟨' ' :: joinSpace (v :: vs), rfl⟩
    rw [hr] at hc
    cases hw' : w with
    | nil => exact absurd hw' hw.1
    | cons x xs =>
      rw [hw'] at hc
      simp only [List.cons_append, List.head?_cons, Option.some.injEq] at hc
      exact hw.2 c (by simp [hw', ← hc])

theorem getLast?_joinSpace_false {ws : List (List Char)}
    (h : ∀ w ∈ ws, w ≠ [] ∧ ∀ c ∈ w, isGoSpace c = false) :
    ∀ c, (joinSpace ws).getLast? = some c → isGoSpace c = false := by
  induction ws with
  | nil => simp [joinSpace]
  | cons w ws ih =>
    intro c hc
    cases ws with
    | nil =>
      have hw := h w (by simp)
      have hcw : c ∈ w := by
        have := List.mem_of_mem_getLast? (l := w) (a := c)
        exact this (by simpa [joinSpace] using hc)
      exact hw.2 c hcw
    | cons v vs =>
      have hJ : joinSpace (v :: vs) ≠ [] :=
        joinSpace_ne_nil (h v (by simp)).1
      obtain ⟨j, hj⟩ : ∃ j, (joinSpace (v :: vs)).getLast? = some j := by
        cases hg : (joinSpace (v :: vs)).getLast? with
        | none => exact absurd (List.getLast?_eq_none_iff.mp hg) hJ
        | some j => exact ⟨j, rfl⟩
      have hc2 : j = c := by
        rw [joinSpace] at hc
        rw [List.getLast?_append] at hc
        have hsp : (' ' :: joinSpace (v :: vs)) = [' '] ++ joinSpace (v :: vs) := rfl
        rw [hsp, List.getLast?_append, hj] at hc
        simpa using hc
      subst hc2
      exact ih (fun u hu => h u (by simp [hu])) j hj

theorem prepareL_eq (l : List Char) :
    prepareL l = if trimSpace (removeStars l) = [] then []
      else joinSpace ((fields (trimSpace (removeStars l))).map transformWord) := by
  unfold prepareL
  by_cases h : trimSpace (removeStars l) = [] <;> simp [h]

theorem removeStars_trimSpace_removeStars (l : List Char) :
    removeStars (trimSpace (removeStars l)) = trimSpace (removeStars l) :=
  removeStars_eq_self (fun _ hc => mem_removeStars_ne_star (mem_trimSpace hc))

theorem fields_trim_ne_nil {l : List Char} (h : trimSpace l ≠ []) :
    fields (trimSpace l) ≠ [] := by
  cases ht : trimSpace l with
  | nil => exact absurd ht h
  | cons c cs =>
    have hc : isGoSpace c = false := head?_trimSpace_false (by rw [ht]; rfl)
    exact fields_ne_nil cs hc

theorem prepareL_idem (l : List Char) : prepareL (prepareL l) = prepareL l := by
  by_cases hq : trimSpace (removeStars l) = []
  · have h1 : prepareL l = [] := by rw [prepareL_eq l, if_pos hq]
    rw [h1]
    decide
  · have h1 : prepareL l =
        joinSpace ((fields (trimSpace (removeStars l))).map transformWord) := by
      rw [prepareL_eq l, if_neg hq]
    set ws := fields (trimSpace (removeStars l)) with hwsdef
    have hwords : ∀ w ∈ ws, w ≠ [] ∧ ∀ c ∈ w, isGoSpace c = false := fun w hw =>
      ⟨(mem_fields hw).1, fun c hc => ((mem_fields hw).2 c hc).1⟩
    have hstarfree : ∀ w ∈ ws, ∀ c ∈ w, c ≠ '*' := fun w hw c hc =>
      mem_removeStars_ne_star (mem_trimSpace (((mem_fields hw).2 c hc).2))
    have hws_ne : ws ≠ [] := fields_trim_ne_nil hq
    have hx_rm : removeStars (joinSpace (ws.map transformWord)) = joinSpace ws := by
      rw [removeStars_joinSpace, List.map_map]
      have heq : ws.map (removeStars ∘ transformWord) = ws.map id :=
        List.map_congr_left (fun w hw => removeStars_transformWord (hstarfree w hw))
      rw [heq, List.map_id]
    obtain ⟨w0, rest, hwr⟩ : ∃ w0 rest, ws = w0 :: rest := by
      cases hws : ws with
      | nil => exact absurd hws hws_ne
      | cons w0 rest => exact ⟨w0, rest, rfl⟩
    have hjoin_ne : joinSpace ws ≠ [] := by
      rw [hwr]
      exact joinSpace_ne_nil (hwords w0 (by simp [hwr])).1
    have htrim : trimSpace (joinSpace ws) = joinSpace ws :=
      trimSpace_eq_self (head?_joinSpace_false hwords) (getLast?_joinSpace_false hwords)
    have hfields : fields (joinSpace ws) = ws := fields_joinSpace hwords
    rw [h1, prepareL_eq, hx_rm, htrim, if_neg hjoin_ne, hfields]

end Website
namespace Website

/-! ## Wildcard-placement lemmas (claim C4) -/

theorem soate_cons_ne {c : Char} {m : List Char} (h : c ≠ '*') :
    starsOnlyAtTokenEnds (c :: m) = starsOnlyAtTokenEnds m := by
  cases m with
  | nil => rfl
  | cons d rest =>
    rw [starsOnlyAtTokenEnds]
    simp [h]

theorem soate_append_starfree {v m : List Char} (hv : ∀ c ∈ v, c ≠ '*')
    (hm : starsOnlyAtTokenEnds m = true) :
    starsOnlyAtTokenEnds (v ++ m) = true := by
  induction v with
  | nil => simpa using hm
  | cons c v2 ih =>
    have hc : c ≠ '*' := hv c (by simp)
    rw [List.cons_append, soate_cons_ne hc]
    exact ih (fun x hx => hv x (by simp [hx]))

theorem soate_star_space {m : List Char} (hm : starsOnlyAtTokenEnds m = true) :
    starsOnlyAtTokenEnds ('*' :: ' ' :: m) = true := by
  rw [starsOnlyAtTokenEnds, if_pos rfl, soate_cons_ne (by decide : (' ' : Char) ≠ '*'), hm]
  decide

theorem soate_joinSpace {ws : List (List Char)} (h : ∀ w ∈ ws, wordOK w) :
    starsOnlyAtTokenEnds (joinSpace ws) = true := by
  induction ws with
  | nil => rfl
  | cons w ws ih =>
    cases ws with
    | nil =>
      rw [joinSpace]
      rcases h w (by simp) with hfree | ⟨v, hvfree, rfl⟩
      · simpa using soate_append_starfree hfree (m := []) (by decide)
      · exact soate_append_starfree hvfree (by decide)
    | cons u us =>
      rw [joinSpace]
      have hJ : starsOnlyAtTokenEnds (joinSpace (u :: us)) = true :=
        ih (fun x hx => h x (by simp [hx]))
      have hspJ : starsOnlyAtTokenEnds (' ' :: joinSpace (u :: us)) = true := by
        rw [soate_cons_ne (by decide)]
        exact hJ
      rcases h w (by simp) with hfree | ⟨v, hvfree, rfl⟩
      · exact soate_append_starfree hfree hspJ
      · rw [List.append_assoc]
        exact soate_append_starfree hvfree (soate_star_space hJ)

theorem wordOK_transformWord {w : List Char} (h : ∀ c ∈ w, c ≠ '*') :
    wordOK (transformWord w) := by
  unfold transformWord
  split
  · exact Or.inl h
  · split
    · exact Or.inl h
    · exact Or.inr ⟨w, h, rfl⟩

theorem soate_prepareL (l : List Char) :
    starsOnlyAtTokenEnds (prepareL l) = true := by
  rw [prepareL_eq]
  by_cases hq : trimSpace (removeStars l) = []
  · rw [if_pos hq]
    rfl
  · rw [if_neg hq]
    apply soate_joinSpace
    intro w hw
    obtain ⟨v, hv, rfl⟩ := List.mem_map.mp hw
    exact wordOK_transformWord (fun c hc =>
      mem_removeStars_ne_star (mem_trimSpace (((mem_fields hv).2 c hc).2)))

end Website
namespace Website

/-! ## Lemmas about the search pipeline -/

theorem mem_sortResultsByRank {r : SearchResult} {rs : List SearchResult} :
    r ∈ sortResultsByRank rs ↔ r ∈ rs :=
  (List.perm_insertionSort rankLE rs).mem_iff

theorem length_sortResultsByRank (rs : List SearchResult) :
    (sortResultsByRank rs).length = rs.length :=
  (List.perm_insertionSort rankLE rs).length_eq

theorem runFTSQuery_published {α : Type} (idx : FTSIndex α) (published : α → Bool)
    (table : List α) (q : String) {row : α × ℚ × String}
    (h : row ∈ runFTSQuery idx published table q) : published row.1 = true := by
  unfold runFTSQuery at h
  have h2 := List.mem_of_mem_take h
  have h3 := (List.perm_insertionSort
    (fun x y : α × ℚ × String => x.2.1 ≤ y.2.1) _).subset h2
  obtain ⟨a, ha, rfl⟩ := List.mem_map.mp h3
  have h4 := List.of_mem_filter ha
  exact (Bool.and_eq_true _ _ |>.mp h4).2

theorem runFTSQuery_length_le {α : Type} (idx : FTSIndex α) (published : α → Bool)
    (table : List α) (q : String) :
    (runFTSQuery idx published table q).length ≤ 50 :=
  List.length_take_le 50 _

theorem searchCore_of_ne_empty {raw : String} (h : raw ≠ "")
    (postsQuery : String → Except Unit (List (Post × ℚ × String)))
    (pagesQuery : String → Except Unit (List (Page × ℚ × String)))
    (getPostTags : Nat → List String) :
    searchCore raw postsQuery pagesQuery getPostTags =
      (sortResultsByRank (
        (match postsQuery (prepareFTSQuery raw) with
         | Except.error _ => []
         | Except.ok rows => rows.map (postRowToResult getPostTags)) ++
        (match pagesQuery (prepareFTSQuery raw) with
         | Except.error _ => []
         | Except.ok rows => rows.map pageRowToResult)),
       [(Collection.posts, prepareFTSQuery raw),
        (Collection.pages, prepareFTSQuery raw)]) := by
  unfold searchCore
  rw [if_neg h]

end Website
namespace Website

theorem specTokenRewrite_eq_transformWord (w : List Char) :
    specTokenRewrite w = transformWord w := by
  unfold specTokenRewrite transformWord isOperator
  by_cases h1 : w.map toUpperChar = "AND".data ∨ w.map toUpperChar = "OR".data ∨
      w.map toUpperChar = "NOT".data
  · rcases h1 with h | h | h <;> simp [h]
  · push_neg at h1
    by_cases h2 : w.head? = some '"' ∧ w.getLast? = some '"'
    · simp [h1.1, h1.2.1, h1.2.2, h2.1, h2.2]
    · have h3 : ¬(w.head? = some '"') ∨ ¬(w.getLast? = some '"') := by tauto
      rcases h3 with h3 | h3 <;> simp [h1.1, h1.2.1, h1.2.2, h3]

theorem prepareL_removeStars (l : List Char) :
    prepareL (removeStars l) = prepareL l := by
  rw [prepareL_eq, prepareL_eq, removeStars_idem]

theorem all_space_prepareL {l : List Char} (h : l.all isGoSpace = true) :
    prepareL l = [] := by
  have hstars : removeStars l = l :=
    removeStars_eq_self (fun c hc heq => by
      have := List.all_eq_true.mp h c hc
      rw [heq] at this
      exact absurd this (by decide))
  have htrim : trimSpace l = [] := by
    unfold trimSpace
    rw [List.dropWhile_eq_nil_iff.mpr (fun c hc => List.all_eq_true.mp h c hc)]
    simp
  rw [prepareL_eq, hstars, htrim, if_pos rfl]

end Website
namespace Website

theorem searchCore_fst_of_ne_empty {raw : String} (h : raw ≠ "")
    (postsQuery : String → Except Unit (List (Post × ℚ × String)))
    (pagesQuery : String → Except Unit (List (Page × ℚ × String)))
    (getPostTags : Nat → List String) :
    (searchCore raw postsQuery pagesQuery getPostTags).1 =
      sortResultsByRank (
        (match postsQuery (prepareFTSQuery raw) with
         | Except.error _ => []
         | Except.ok rows => rows.map (postRowToResult getPostTags)) ++
        (match pagesQuery (prepareFTSQuery raw) with
         | Except.error _ => []
         | Except.ok rows => rows.map pageRowToResult)) := by
  rw [searchCore_of_ne_empty h]

theorem searchCore_snd_of_ne_empty {raw : String} (h : raw ≠ "")
    (postsQuery : String → Except Unit (List (Post × ℚ × String)))
    (pagesQuery : String → Except Unit (List (Page × ℚ × String)))
    (getPostTags : Nat → List String) :
    (searchCore raw postsQuery pagesQuery getPostTags).2 =
      [(Collection.posts, prepareFTSQuery raw),
       (Collection.pages, prepareFTSQuery raw)] := by
  rw [searchCore_of_ne_empty h]

theorem searchCoreSQL_fst {raw : String} (h : raw ≠ "")
    (postIdx : FTSIndex Post) (pageIdx : FTSIndex Page)
    (postsTable : List Post) (pagesTable : List Page)
    (getPostTags : Nat → List String) :
    (searchCoreSQL raw postIdx pageIdx postsTable pagesTable getPostTags).1 =
      sortResultsByRank (
        ((runFTSQuery postIdx Post.published postsTable (prepareFTSQuery raw)).map
          (postRowToResult getPostTags)) ++
        ((runFTSQuery pageIdx Page.published pagesTable (prepareFTSQuery raw)).map
          pageRowToResult)) := by
  unfold searchCoreSQL
  rw [searchCore_fst_of_ne_empty h]

end Website
namespace Website

/-! ## The claims -/

/-- C1, counterexample: the double-quoted multi-word phrase is NOT returned
unchanged — `strings.Fields` splits it at the inner space, the two pieces
do not individually start and end with a quote, and each receives the
prefix wildcard. -/
theorem prepare_multiword_quoted_phrase_changed :
    prepareFTSQuery "\"exact phrase\"" ≠ "\"exact phrase\"" := by decide

/-- C1, amended: only a token that individually both starts and ends with a
double quote passes through unchanged; a multi-word quoted phrase is split
on whitespace and each piece that is not itself quote-delimited gets the
wildcard, so prepare(&quot;exact phrase&quot;) = `"exact* phrase"*`, while the
single-token phrase `"exact"` is preserved. -/
theorem prepare_quoted_phrase_tokenwise :
    prepareFTSQuery "\"exact phrase\"" = "\"exact* phrase\"*" ∧
    prepareFTSQuery "\"exact\"" = "\"exact\"" :=
  ⟨by decide, by decide⟩

/-- C2: the merged output is the concatenation of the two collections'
result lists sorted ascending by rank score, and it is computed
deterministically from the input — identical input lists always produce
the identical output order. -/
theorem merge_sorted_and_deterministic (postResults pageResults : List SearchResult) :
    List.Sorted rankLE (mergeResults postResults pageResults) ∧
    (mergeResults postResults pageResults).Perm (postResults ++ pageResults) ∧
    (∀ a b, a = postResults → b = pageResults →
      mergeResults a b = mergeResults postResults pageResults) :=
  ⟨List.sorted_insertionSort rankLE _, List.perm_insertionSort rankLE _,
   fun a b ha hb => by rw [ha, hb]⟩

/-- Witness for C2 at two concrete equal-rank result lists. -/
theorem merge_sorted_and_deterministic_witness :
    (([⟨"post", none, none, 0, "s1", ""⟩] : List SearchResult) =
      [⟨"post", none, none, 0, "s1", ""⟩]) ∧
    mergeResults [⟨"post", none, none, 0, "s1", ""⟩] [⟨"page", none, none, 0, "s2", ""⟩] =
      mergeResults [⟨"post", none, none, 0, "s1", ""⟩] [⟨"page", none, none, 0, "s2", ""⟩] :=
  ⟨rfl, (merge_sorted_and_deterministic [⟨"post", none, none, 0, "s1", ""⟩]
    [⟨"page", none, none, 0, "s2", ""⟩]).2.2 _ _ rfl rfl⟩

/-- C3, counterexample: for the whitespace-only raw query `"   "` the
prepared query is empty, yet the handler — whose short-circuit tests only
the RAW query against `""` — still issues both index queries, passing the
empty match expression; so "issues no query against either collection's
text index" is false at this input (the result list is nevertheless empty
here, both queries failing). -/
theorem whitespace_query_issues_index_queries :
    (searchCore "   " (fun _ => Except.error ()) (fun _ => Except.error ())
        (fun _ => [])).2 = [(Collection.posts, ""), (Collection.pages, "")] ∧
    (searchCore "   " (fun _ => Except.error ()) (fun _ => Except.error ())
        (fun _ => [])).2 ≠ [] :=
  ⟨by decide, by decide⟩

/-- C3, amended: only the empty RAW query short-circuits — it yields an
empty result sequence with no index query issued; a non-empty raw query
whose prepared form is empty (e.g. whitespace-only input) does NOT
short-circuit: both index queries are still issued, with the empty
prepared string as the match expression. -/
theorem empty_raw_query_short_circuit
    (postsQuery : String → Except Unit (List (Post × ℚ × String)))
    (pagesQuery : String → Except Unit (List (Page × ℚ × String)))
    (getPostTags : Nat → List String) :
    searchCore "" postsQuery pagesQuery getPostTags = ([], []) ∧
    ∀ raw, raw ≠ "" → prepareFTSQuery raw = "" →
      (searchCore raw postsQuery pagesQuery getPostTags).2 =
        [(Collection.posts, ""), (Collection.pages, "")] := by
  constructor
  · unfold searchCore
    rw [if_pos rfl]
  · intro raw hraw hprep
    rw [searchCore_snd_of_ne_empty hraw, hprep]

/-- Witness for C3's amended claim at the whitespace-only raw query. -/
theorem empty_raw_query_short_circuit_witness :
    ("   " ≠ "") ∧ prepareFTSQuery "   " = "" ∧
    (searchCore "   " (fun _ => Except.ok []) (fun _ => Except.ok [])
        (fun _ => [])).2 = [(Collection.posts, ""), (Collection.pages, "")] :=
  ⟨by decide, by decide,
   (empty_raw_query_short_circuit (fun _ => Except.ok []) (fun _ => Except.ok [])
     (fun _ => [])).2 "   " (by decide) (by decide)⟩

/-- C4: prepare's result never depends on user-supplied wildcards —
prepare(s) = prepare(s with every `'*'` deleted) — and every `'*'` in
prepare's output stands at the end of a whitespace-delimited token (it was
appended by the function itself); in particular prepare("a*b") = "ab*". -/
theorem prepare_strips_user_wildcards :
    (∀ s : String, prepareFTSQuery s = prepareFTSQuery (removeStarsStr s)) ∧
    (∀ s : String, starsOnlyAtTokenEnds (prepareFTSQuery s).data = true) ∧
    prepareFTSQuery "a*b" = "ab*" := by
  refine ⟨fun s => ?_, fun s => soate_prepareL s.data, by decide⟩
  show String.mk (prepareL s.data) = String.mk (prepareL (removeStars s.data))
  rw [prepareL_removeStars]

/-- C5: prepare is exactly the spec's pipeline — strip wildcards, trim,
return empty input as-is, split into whitespace-delimited tokens, keep
case-insensitive operator tokens (original case) and quote-delimited
tokens, append the wildcard to all others, re-join with single spaces —
with the spec's two examples. -/
theorem prepare_tokenization :
    (∀ s : String, prepareFTSQuery s =
      if trimSpace (removeStars s.data) = [] then ""
      else String.mk (joinSpace ((fields (trimSpace (removeStars s.data))).map
        specTokenRewrite))) ∧
    prepareFTSQuery "hello world" = "hello* world*" ∧
    prepareFTSQuery "hello AND world" = "hello* AND world*" := by
  refine ⟨fun s => ?_, by decide, by decide⟩
  have hfun : specTokenRewrite = transformWord := funext specTokenRewrite_eq_transformWord
  rw [hfun]
  show String.mk (prepareL s.data) = _
  rw [prepareL_eq]
  by_cases h : trimSpace (removeStars s.data) = []
  · rw [if_pos h, if_pos h]
  · rw [if_neg h, if_neg h]

/-- C6: under the SQL semantics of the two index queries (which filter on
`published = 1` inside the query itself), no result ever references an
unpublished item, whatever the tables, index behaviour and query. -/
theorem search_only_published
    (postIdx : FTSIndex Post) (pageIdx : FTSIndex Page)
    (postsTable : List Post) (pagesTable : List Page)
    (raw : String) (getPostTags : Nat → List String) :
    ∀ r ∈ (searchCoreSQL raw postIdx pageIdx postsTable pagesTable getPostTags).1,
      resultPublished r := by
  intro r hr
  by_cases hraw : raw = ""
  · subst hraw
    unfold searchCoreSQL searchCore at hr
    rw [if_pos rfl] at hr
    simp at hr
  · rw [searchCoreSQL_fst hraw, mem_sortResultsByRank, List.mem_append] at hr
    rcases hr with hr | hr
    · obtain ⟨row, hrow, rfl⟩ := List.mem_map.mp hr
      have hpub := runFTSQuery_published postIdx Post.published postsTable
        (prepareFTSQuery raw) hrow
      constructor
      · intro p hp
        have hp2 : ({ row.1 with tags := getPostTags row.1.id } : Post) = p := by
          simpa [postRowToResult] using hp
        rw [← hp2]
        exact hpub
      · intro g hg
        simp [postRowToResult] at hg
    · obtain ⟨row, hrow, rfl⟩ := List.mem_map.mp hr
      have hpub := runFTSQuery_published pageIdx Page.published pagesTable
        (prepareFTSQuery raw) hrow
      constructor
      · intro p hp
        simp [pageRowToResult] at hp
      · intro g hg
        have hg2 : row.1 = g := by simpa [pageRowToResult] using hg
        rw [← hg2]
        exact hpub

/-- Witness for C6: a concrete published post appears in a concrete search
and satisfies the publication invariant. -/
theorem search_only_published_witness :
    ((⟨"post", some ⟨1, "T", "t", "body", "", "article", true, 0, 0, []⟩,
        none, 0, "snip", ""⟩ : SearchResult) ∈
      (searchCoreSQL "x"
        ⟨fun _ _ => true, fun _ _ => 0, fun _ _ => "snip"⟩
        ⟨fun _ _ => true, fun _ _ => 0, fun _ _ => "snip"⟩
        [⟨1, "T", "t", "body", "", "article", true, 0, 0, []⟩] []
        (fun _ => [])).1) ∧
    resultPublished ⟨"post", some ⟨1, "T", "t", "body", "", "article", true, 0, 0, []⟩,
        none, 0, "snip", ""⟩ :=
  ⟨by decide, search_only_published
    ⟨fun _ _ => true, fun _ _ => 0, fun _ _ => "snip"⟩
    ⟨fun _ _ => true, fun _ _ => 0, fun _ _ => "snip"⟩
    [⟨1, "T", "t", "body", "", "article", true, 0, 0, []⟩] [] "x" (fun _ => [])
    _ (by decide)⟩

/-- C7: each collection's query returns at most 50 rows (the `LIMIT 50`),
so the merged result sequence never holds more than 100 elements. -/
theorem search_result_count_bounds
    (postIdx : FTSIndex Post) (pageIdx : FTSIndex Page)
    (postsTable : List Post) (pagesTable : List Page)
    (raw q : String) (getPostTags : Nat → List String) :
    (runFTSQuery postIdx Post.published postsTable q).length ≤ 50 ∧
    (runFTSQuery pageIdx Page.published pagesTable q).length ≤ 50 ∧
    (searchCoreSQL raw postIdx pageIdx postsTable pagesTable getPostTags).1.length ≤ 100 := by
  refine ⟨runFTSQuery_length_le _ _ _ _, runFTSQuery_length_le _ _ _ _, ?_⟩
  by_cases hraw : raw = ""
  · subst hraw
    unfold searchCoreSQL searchCore
    rw [if_pos rfl]
    simp
  · rw [searchCoreSQL_fst hraw, length_sortResultsByRank, List.length_append,
      List.length_map, List.length_map]
    have h1 := runFTSQuery_length_le postIdx Post.published postsTable (prepareFTSQuery raw)
    have h2 := runFTSQuery_length_le pageIdx Page.published pagesTable (prepareFTSQuery raw)
    omega

/-- C8: the two index queries are attempted independently — if the posts
query fails the search behaves exactly as if that collection had returned
no rows while the pages query still runs (and vice versa), and for a
non-empty raw query both index queries are always issued. -/
theorem per_collection_failure_isolated
    (raw : String)
    (postsQuery : String → Except Unit (List (Post × ℚ × String)))
    (pagesQuery : String → Except Unit (List (Page × ℚ × String)))
    (getPostTags : Nat → List String) :
    (postsQuery (prepareFTSQuery raw) = Except.error () →
      searchCore raw postsQuery pagesQuery getPostTags =
        searchCore raw (fun _ => Except.ok []) pagesQuery getPostTags) ∧
    (pagesQuery (prepareFTSQuery raw) = Except.error () →
      searchCore raw postsQuery pagesQuery getPostTags =
        searchCore raw postsQuery (fun _ => Except.ok []) getPostTags) ∧
    (raw ≠ "" → (searchCore raw postsQuery pagesQuery getPostTags).2 =
      [(Collection.posts, prepareFTSQuery raw),
       (Collection.pages, prepareFTSQuery raw)]) := by
  by_cases hraw : raw = ""
  · subst hraw
    refine ⟨fun _ => ?_, fun _ => ?_, fun h => absurd rfl h⟩ <;> simp [searchCore]
  · refine ⟨fun herr => ?_, fun herr => ?_, fun _ => searchCore_snd_of_ne_empty hraw _ _ _⟩
    · rw [searchCore_of_ne_empty hraw, searchCore_of_ne_empty hraw, herr]
      rfl
    · rw [searchCore_of_ne_empty hraw, searchCore_of_ne_empty hraw, herr]
      rfl

/-- Witness for C8: with a failing posts oracle and a pages oracle holding
one row, the search equals the ok-but-empty-posts search, and the surviving
page result is produced. -/
theorem per_collection_failure_isolated_witness :
    searchCore "x" (fun _ => Except.error ())
        (fun _ => Except.ok [(⟨2, "P", "p", "b", "", true, 0, 0⟩, -1, "s")])
        (fun _ => []) =
      searchCore "x" (fun _ => Except.ok [])
        (fun _ => Except.ok [(⟨2, "P", "p", "b", "", true, 0, 0⟩, -1, "s")])
        (fun _ => []) ∧
    (searchCore "x" (fun _ => Except.error ())
        (fun _ => Except.ok [(⟨2, "P", "p", "b", "", true, 0, 0⟩, -1, "s")])
        (fun _ => [])).1 =
      [⟨"page", none, some ⟨2, "P", "p", "b", "", true, 0, 0⟩, -1, "s", ""⟩] :=
  ⟨(per_collection_failure_isolated "x" (fun _ => Except.error ())
      (fun _ => Except.ok [(⟨2, "P", "p", "b", "", true, 0, 0⟩, -1, "s")])
      (fun _ => [])).1 rfl,
   by decide⟩

/-- C9: prepare maps the empty string and every whitespace-only string to
the empty string. -/
theorem prepare_empty_and_whitespace :
    prepareFTSQuery "" = "" ∧ prepareFTSQuery "   " = "" ∧
    ∀ s : String, s.data.all isGoSpace = true → prepareFTSQuery s = "" := by
  refine ⟨by decide, by decide, fun s hs => ?_⟩
  show String.mk (prepareL s.data) = ""
  rw [all_space_prepareL hs]

/-- Witness for C9 at a tab-and-newline string. -/
theorem prepare_empty_and_whitespace_witness :
    ("\t\n".data.all isGoSpace = true) ∧ prepareFTSQuery "\t\n" = "" :=
  ⟨by decide, prepare_empty_and_whitespace.2.2 "\t\n" (by decide)⟩

/-- C10: prepare is idempotent — a second pass strips exactly the wildcards
the first pass appended and re-appends them at the same token ends. -/
theorem prepare_idempotent (s : String) :
    prepareFTSQuery (prepareFTSQuery s) = prepareFTSQuery s :=
  congrArg String.mk (prepareL_idem s.data)

end Website
